import Mathlib

/-!
# Verification of the pollen log-structured key-value store

Shallow embedding of `src/pollen/disk_store.py` (class `DiskStorage`) and of
the record codec `pollen.format` (whose module file is not present under
`src/`; it is modelled from the spec, see the doc comments below).

Strings are modelled at the byte level: a Python `str` key or value is
represented by its UTF-8 byte sequence (a `List Nat`), since UTF-8
encoding/decoding is a bijection between valid strings and their byte
sequences and every operation of the engine works on the encoded bytes.
Python exceptions are modelled with `Except String`; file I/O on the log is
modelled by keeping the file contents as a byte list in the engine state.
-/

namespace Pollen

/-- Byte sequences: Python `bytes` values and UTF-8 encoded strings. -/
abbrev Bytes := List Nat

/-! ## Record codec (`pollen.format`)

Modelled from the spec: the module `pollen/format.py` is not under `src/`
(only its tests `src/pollen/tests/test_format.py` and its callers in
`src/pollen/disk_store.py` are present).  The definitions below follow the
spec, section 4.1: a 12-byte header of three fixed-width unsigned 32-bit
integers in a single consistent byte order (little-endian here), a
`RangeError` on encoding any field outside `[0, 2^32 - 1]`, a
`MalformedInputError` on decoding a wrong-length buffer. -/

/-- Modelled from the spec: fixed header size, 12 bytes (4 per field). -/
def HEADER_SIZE : Nat := 12

/-- Serialize an unsigned 32-bit integer as 4 little-endian bytes. -/
def u32_to_bytes (n : Nat) : Bytes :=
  [n % 256, n / 256 % 256, n / 65536 % 256, n / 16777216 % 256]

/-- Deserialize 4 little-endian bytes to an unsigned 32-bit integer. -/
def bytes_to_u32 : Bytes → Nat
  | [b0, b1, b2, b3] => b0 + 256 * b1 + 65536 * b2 + 16777216 * b3
  | _ => 0

/-- Modelled from the spec: `encode_header(timestamp, key_size, value_size)`
serializes the three fields as three unsigned 32-bit integers, failing with
a `RangeError` if any input does not fit in 32 bits unsigned. -/
def encode_header (timestamp key_size value_size : Nat) : Except String Bytes :=
  if timestamp < 2 ^ 32 ∧ key_size < 2 ^ 32 ∧ value_size < 2 ^ 32 then
    .ok (u32_to_bytes timestamp ++ u32_to_bytes key_size ++ u32_to_bytes value_size)
  else
    .error "RangeError"

/-- Modelled from the spec: `decode_header(data)` is the inverse of
`encode_header`; it requires the input to be exactly `HEADER_SIZE` bytes and
fails with a `MalformedInputError` on wrong length. -/
def decode_header (data : Bytes) : Except String (Nat × Nat × Nat) :=
  if data.length = HEADER_SIZE then
    .ok (bytes_to_u32 (data.take 4), bytes_to_u32 ((data.drop 4).take 4),
         bytes_to_u32 (data.drop 8))
  else
    .error "MalformedInputError"

/-- Modelled from the spec: `encode_kv(timestamp, key, value)` builds the
header from the byte lengths of key and value, concatenates
header ++ key ++ value, and returns the total size
`HEADER_SIZE + key_size + value_size` together with the buffer. -/
def encode_kv (timestamp : Nat) (key value : Bytes) :
    Except String (Nat × Bytes) :=
  match encode_header timestamp key.length value.length with
  | .error e => .error e
  | .ok header =>
      .ok (HEADER_SIZE + key.length + value.length, header ++ key ++ value)

/-- Modelled from the spec: `decode_kv(data)` decodes the header to learn
the sizes, then slices the remaining bytes into key and value; it fails with
a `MalformedInputError` if the buffer is shorter than
`HEADER_SIZE + key_size + value_size`. -/
def decode_kv (data : Bytes) : Except String (Nat × Bytes × Bytes) :=
  match decode_header (data.take HEADER_SIZE) with
  | .error e => .error e
  | .ok (timestamp, key_size, value_size) =>
      if data.length < HEADER_SIZE + key_size + value_size then
        .error "MalformedInputError"
      else
        .ok (timestamp, (data.drop HEADER_SIZE).take key_size,
             ((data.drop HEADER_SIZE).drop key_size).take value_size)

/-! ## Engine state (`src/pollen/disk_store.py`) -/

/-- The `KeyEntry` dataclass from `disk_store.py`: timestamp, byte offset of the record in
the log file, and total byte length of the record. -/
structure KeyEntry where
  timestamp : Nat
  position : Nat
  size : Nat
deriving DecidableEq

/-- The in-memory key directory: a Python `dict[str, KeyEntry]` modelled as
an insertion-ordered association list over UTF-8 key bytes. -/
abbrev Dict := List (Bytes × KeyEntry)

/-- Lookup in the key directory (`self.key_dir.get(key)`). -/
def dictGet (d : Dict) (k : Bytes) : Option KeyEntry :=
  match d with
  | [] => none
  | (k', e) :: rest => if k' = k then some e else dictGet rest k

/-- Insert or overwrite in the key directory (`self.key_dir[key] = kv`):
replaces in place when the key is present, appends otherwise, matching the
insertion-order semantics of a Python dict. -/
def dictSet (d : Dict) (k : Bytes) (e : KeyEntry) : Dict :=
  match d with
  | [] => [(k, e)]
  | (k', e') :: rest =>
      if k' = k then (k, e) :: rest else (k', e') :: dictSet rest k e

/-- Deletion from the key directory (`del self.key_dir[key]`). -/
def dictDel (d : Dict) (k : Bytes) : Dict :=
  match d with
  | [] => []
  | (k', e') :: rest => if k' = k then rest else (k', e') :: dictDel rest k

/-- The state of a `DiskStorage` instance: the log file contents (the bytes
on disk), whether the append-mode handle is still open, the key directory,
and the write position. -/
structure DiskStorage where
  file : Bytes
  fileOpen : Bool
  key_dir : Dict
  write_position : Nat
deriving DecidableEq

/-- The replay loop of `DiskStorage._init_key_dir`: repeatedly read a
12-byte header (a read at EOF returns the empty buffer and ends the loop),
decode it, read `key_size` bytes of key (a read near EOF returns what is
left), seek over the value, record the entry at the current position, and
advance by `HEADER_SIZE + key_size + value_size`.  Note the loop, like the
source, never checks that the key/value bytes it skips actually exist in
the file. -/
def replayLoop (rest : Bytes) (pos : Nat) (dir : Dict) :
    Except String (Dict × Nat) :=
  if h : rest = [] then
    .ok (dir, pos)
  else
    match decode_header (rest.take HEADER_SIZE) with
    | .error e => .error e
    | .ok (timestamp, key_size, value_size) =>
        replayLoop (rest.drop (HEADER_SIZE + key_size + value_size))
          (pos + (HEADER_SIZE + key_size + value_size))
          (dictSet dir ((rest.drop HEADER_SIZE).take key_size)
            ⟨timestamp, pos, HEADER_SIZE + key_size + value_size⟩)
termination_by rest.length
decreasing_by
  have hlen : 0 < rest.length := List.length_pos.mpr h
  simp only [List.length_drop, HEADER_SIZE]
  omega

/-- Embeds `DiskStorage.__init__`: replay the existing file (an absent file is the
empty byte sequence), then hold the handle open with the write position at
the replay's final cursor. -/
def openDisk (file : Bytes) : Except String DiskStorage :=
  match replayLoop file 0 [] with
  | .error e => .error e
  | .ok (dir, pos) =>
      .ok { file := file, fileOpen := true, key_dir := dir,
            write_position := pos }

/-- A `DiskStorage` on a fresh path: no replay, empty directory, write
position 0. -/
def emptyStore : DiskStorage :=
  { file := [], fileOpen := true, key_dir := [], write_position := 0 }

/-- Embeds `DiskStorage.set`: encode the record (a codec failure propagates with
the state untouched), append it durably via `_write` (a write on a closed
handle raises; a failed write/flush/fsync raises `IOError` and may leave
`garbage` bytes at the tail of the file), and only then update the key
directory and advance the write position.  `wfail` injects an I/O failure
of the `_write` step. -/
def setOp (s : DiskStorage) (ts : Nat) (key value : Bytes) (wfail : Bool)
    (garbage : Bytes) : DiskStorage × Except String Unit :=
  match encode_kv ts key value with
  | .error e => (s, .error e)
  | .ok (size, data) =>
      if s.fileOpen then
        if wfail then
          ({ s with file := s.file ++ garbage }, .error "IOError")
        else
          ({ s with
              file := s.file ++ data,
              key_dir := dictSet s.key_dir key ⟨ts, s.write_position, size⟩,
              write_position := s.write_position + size }, .ok ())
      else
        (s, .error "ValueError")

/-- Embeds `DiskStorage.get`: a key absent from the directory returns the empty
string without touching the file; a present key seeks to the entry's
position (raising on a closed handle), reads `entry.size` bytes (what is
left of the file past the position, capped at `size`), and decodes. -/
def getOp (s : DiskStorage) (key : Bytes) : Except String Bytes :=
  match dictGet s.key_dir key with
  | none => .ok []
  | some entry =>
      if s.fileOpen then
        match decode_kv ((s.file.drop entry.position).take entry.size) with
        | .error e => .error e
        | .ok (_, _, value) => .ok value
      else
        .error "ValueError"

/-- Embeds `DiskStorage.remove`: a key absent from the directory is a no-op;
otherwise append a tombstone via `set(key, "")` (an exception there
propagates, leaving the directory entry in place) and then delete the key
from the directory. -/
def removeOp (s : DiskStorage) (ts : Nat) (key : Bytes) (wfail : Bool)
    (garbage : Bytes) : DiskStorage × Except String Unit :=
  if (dictGet s.key_dir key).isSome then
    match setOp s ts key [] wfail garbage with
    | (s', .error e) => (s', .error e)
    | (s', .ok _) => ({ s' with key_dir := dictDel s'.key_dir key }, .ok ())
  else
    (s, .ok ())

/-- Embeds `DiskStorage.list`: the keys currently in the directory (it never
touches the file handle). -/
def listOp (s : DiskStorage) : List Bytes :=
  s.key_dir.map Prod.fst

/-- Embeds `DiskStorage.close`: flush, sync and close the handle; the in-memory
directory is not cleared. -/
def closeOp (s : DiskStorage) : DiskStorage :=
  { s with fileOpen := false }

/-! ## Encoded records and logs

Derived descriptions of the byte strings that `encode_kv` produces and that
a log file built by the engine consists of. -/

/-- The 12 header bytes for a record. -/
def headerBytes (t ks vs : Nat) : Bytes :=
  u32_to_bytes t ++ u32_to_bytes ks ++ u32_to_bytes vs

/-- The full byte string of one record: header, key bytes, value bytes. -/
def recordBytes (t : Nat) (k v : Bytes) : Bytes :=
  headerBytes t k.length v.length ++ k ++ v

/-- Total size of a record with the given key and value. -/
def recSize (k v : Bytes) : Nat :=
  HEADER_SIZE + k.length + v.length

/-- A record descriptor: timestamp, key bytes, value bytes. -/
abbrev RecT := Nat × Bytes × Bytes

/-- A record whose fields fit the 32-bit on-disk widths. -/
def ValidRec (r : RecT) : Prop :=
  r.1 < 2 ^ 32 ∧ r.2.1.length < 2 ^ 32 ∧ r.2.2.length < 2 ^ 32

instance (r : RecT) : Decidable (ValidRec r) := by
  unfold ValidRec
  infer_instance

/-- The byte string of a whole log: the records concatenated in order. -/
def encodeLog : List RecT → Bytes
  | [] => []
  | (t, k, v) :: rest => recordBytes t k v ++ encodeLog rest

/-- The key directory and cursor produced by replaying a list of records. -/
def replayFold (dir : Dict) (pos : Nat) : List RecT → Dict × Nat
  | [] => (dir, pos)
  | (t, k, v) :: rest =>
      replayFold (dictSet dir k ⟨t, pos, recSize k v⟩) (pos + recSize k v) rest

/-- A public mutating operation of the engine, with the wall-clock
timestamp the Python code would take at the time of the call. -/
inductive Op where
  | setK (ts : Nat) (key value : Bytes)
  | removeK (ts : Nat) (key : Bytes)

/-- Run one public mutating operation (with a healthy disk). -/
def applyOp (s : DiskStorage) : Op → DiskStorage
  | .setK ts k v => (setOp s ts k v false []).1
  | .removeK ts k => (removeOp s ts k false []).1

/-- Run a sequence of public mutating operations. -/
def runOps (s : DiskStorage) : List Op → DiskStorage
  | [] => s
  | op :: rest => runOps (applyOp s op) rest

/-- The keys passed to `set` anywhere in an operation sequence. -/
def setKeys : List Op → List Bytes
  | [] => []
  | .setK _ k _ :: rest => k :: setKeys rest
  | .removeK _ _ :: rest => setKeys rest

/-- Every key directory entry lies entirely within the bytes accounted for
by the write position. -/
def PosInv (s : DiskStorage) : Prop :=
  ∀ p ∈ s.key_dir, p.2.position + p.2.size ≤ s.write_position

instance (s : DiskStorage) : Decidable (PosInv s) := by
  unfold PosInv
  infer_instance

/-! ## Codec lemmas -/

theorem length_u32_to_bytes (n : Nat) : (u32_to_bytes n).length = 4 := rfl

theorem bytes_to_u32_u32_to_bytes (n : Nat) (h : n < 2 ^ 32) :
    bytes_to_u32 (u32_to_bytes n) = n := by
  simp only [u32_to_bytes, bytes_to_u32]
  omega

theorem length_headerBytes (t ks vs : Nat) :
    (headerBytes t ks vs).length = HEADER_SIZE := by
  simp [headerBytes, HEADER_SIZE, u32_to_bytes]

theorem length_recordBytes (t : Nat) (k v : Bytes) :
    (recordBytes t k v).length = recSize k v := by
  simp [recordBytes, recSize, length_headerBytes]
  omega

theorem decode_header_headerBytes (t ks vs : Nat)
    (ht : t < 2 ^ 32) (hks : ks < 2 ^ 32) (hvs : vs < 2 ^ 32) :
    decode_header (headerBytes t ks vs) = .ok (t, ks, vs) := by
  have h1 : (headerBytes t ks vs).take 4 = u32_to_bytes t := by
    rw [headerBytes, List.append_assoc]
    exact List.take_left' (length_u32_to_bytes t)
  have h2 : ((headerBytes t ks vs).drop 4).take 4 = u32_to_bytes ks := by
    rw [headerBytes, List.append_assoc, List.drop_left' (length_u32_to_bytes t)]
    exact List.take_left' (length_u32_to_bytes ks)
  have h3 : (headerBytes t ks vs).drop 8 = u32_to_bytes vs := by
    rw [headerBytes]
    exact List.drop_left' (by simp [u32_to_bytes])
  rw [decode_header, if_pos (length_headerBytes t ks vs), h1, h2, h3,
    bytes_to_u32_u32_to_bytes t ht, bytes_to_u32_u32_to_bytes ks hks,
    bytes_to_u32_u32_to_bytes vs hvs]

theorem take_header_recordBytes (t : Nat) (k v tail : Bytes) :
    ((recordBytes t k v ++ tail).take HEADER_SIZE) =
      headerBytes t k.length v.length := by
  rw [recordBytes, List.append_assoc, List.append_assoc]
  exact List.take_left' (length_headerBytes t k.length v.length)

theorem drop_header_recordBytes (t : Nat) (k v tail : Bytes) :
    ((recordBytes t k v ++ tail).drop HEADER_SIZE) = k ++ (v ++ tail) := by
  rw [recordBytes, List.append_assoc, List.append_assoc]
  exact List.drop_left' (length_headerBytes t k.length v.length)

theorem encode_kv_ok (t : Nat) (k v : Bytes)
    (ht : t < 2 ^ 32) (hk : k.length < 2 ^ 32) (hv : v.length < 2 ^ 32) :
    encode_kv t k v = .ok (recSize k v, recordBytes t k v) := by
  rw [encode_kv, encode_header, if_pos ⟨ht, hk, hv⟩]
  simp [recordBytes, headerBytes, recSize]

theorem decode_kv_recordBytes (t : Nat) (k v : Bytes)
    (ht : t < 2 ^ 32) (hk : k.length < 2 ^ 32) (hv : v.length < 2 ^ 32) :
    decode_kv (recordBytes t k v) = .ok (t, k, v) := by
  have htake : (recordBytes t k v).take HEADER_SIZE =
      headerBytes t k.length v.length := by
    have := take_header_recordBytes t k v []
    simpa using this
  have hdrop : (recordBytes t k v).drop HEADER_SIZE = k ++ v := by
    have := drop_header_recordBytes t k v []
    simpa using this
  have hnotlt : ¬ (recordBytes t k v).length <
      HEADER_SIZE + k.length + v.length := by
    rw [length_recordBytes, recSize]
    omega
  rw [decode_kv, htake, decode_header_headerBytes t k.length v.length ht hk hv]
  simp [hnotlt, hdrop, List.take_left, List.drop_left, List.take_length]

/-! ## Replay lemmas -/

theorem replayLoop_nil (pos : Nat) (dir : Dict) :
    replayLoop [] pos dir = .ok (dir, pos) := by
  rw [replayLoop]
  rfl

theorem replayLoop_record (t : Nat) (k v tail : Bytes) (pos : Nat) (dir : Dict)
    (ht : t < 2 ^ 32) (hk : k.length < 2 ^ 32) (hv : v.length < 2 ^ 32) :
    replayLoop (recordBytes t k v ++ tail) pos dir =
      replayLoop tail (pos + recSize k v)
        (dictSet dir k ⟨t, pos, recSize k v⟩) := by
  have hne : recordBytes t k v ++ tail ≠ [] := by
    intro hnil
    have : (recordBytes t k v ++ tail).length = 0 := by rw [hnil]; rfl
    rw [List.length_append, length_recordBytes, recSize, HEADER_SIZE] at this
    omega
  rw [replayLoop, dif_neg hne, take_header_recordBytes,
    decode_header_headerBytes t k.length v.length ht hk hv]
  have hkey : ((recordBytes t k v ++ tail).drop HEADER_SIZE).take k.length
      = k := by
    rw [drop_header_recordBytes]
    exact List.take_left k (v ++ tail)
  have hdroptot : (recordBytes t k v ++ tail).drop
      (HEADER_SIZE + k.length + v.length) = tail := by
    have : (recordBytes t k v).length = HEADER_SIZE + k.length + v.length := by
      rw [length_recordBytes, recSize]
    exact List.drop_left' this
  simp only [hkey, hdroptot, recSize]

theorem replayLoop_encodeLog (rs : List RecT) (tail : Bytes) (pos : Nat)
    (dir : Dict) (hval : ∀ r ∈ rs, ValidRec r) :
    replayLoop (encodeLog rs ++ tail) pos dir =
      replayLoop tail (replayFold dir pos rs).2 (replayFold dir pos rs).1 := by
  induction rs generalizing pos dir tail with
  | nil => simp [encodeLog, replayFold]
  | cons r rest ih =>
      obtain ⟨t, k, v⟩ := r
      have hr : ValidRec (t, k, v) := hval _ (by simp)
      obtain ⟨ht, hk, hv⟩ := hr
      rw [encodeLog, List.append_assoc,
        replayLoop_record t k v (encodeLog rest ++ tail) pos dir ht hk hv,
        ih _ _ _ (fun r hr => hval r (by simp [hr]))]
      rfl

theorem replayFold_pos (rs : List RecT) (dir : Dict) (pos : Nat) :
    (replayFold dir pos rs).2 = pos + (encodeLog rs).length := by
  induction rs generalizing pos dir with
  | nil => simp [replayFold, encodeLog]
  | cons r rest ih =>
      obtain ⟨t, k, v⟩ := r
      rw [replayFold, encodeLog, ih, List.length_append, length_recordBytes]
      omega

theorem openDisk_encodeLog (rs : List RecT) (hval : ∀ r ∈ rs, ValidRec r) :
    openDisk (encodeLog rs) =
      .ok { file := encodeLog rs, fileOpen := true,
            key_dir := (replayFold [] 0 rs).1,
            write_position := (encodeLog rs).length } := by
  have h := replayLoop_encodeLog rs [] 0 [] hval
  rw [List.append_nil] at h
  rw [openDisk, h, replayLoop_nil, replayFold_pos]
  simp

theorem encodeLog_append (rs rs' : List RecT) :
    encodeLog (rs ++ rs') = encodeLog rs ++ encodeLog rs' := by
  induction rs with
  | nil => simp [encodeLog]
  | cons r rest ih =>
      obtain ⟨t, k, v⟩ := r
      simp [encodeLog, ih]

theorem replayFold_append (rs rs' : List RecT) (dir : Dict) (pos : Nat) :
    replayFold dir pos (rs ++ rs') =
      replayFold (replayFold dir pos rs).1 (replayFold dir pos rs).2 rs' := by
  induction rs generalizing pos dir with
  | nil => simp [replayFold]
  | cons r rest ih =>
      obtain ⟨t, k, v⟩ := r
      rw [List.cons_append, replayFold, replayFold, ih]

/-! ## Key directory lemmas -/

theorem dictGet_dictSet_self (d : Dict) (k : Bytes) (e : KeyEntry) :
    dictGet (dictSet d k e) k = some e := by
  induction d with
  | nil => simp [dictSet, dictGet]
  | cons p rest ih =>
      obtain ⟨k', e'⟩ := p
      by_cases h : k' = k
      · simp [dictSet, dictGet, h]
      · simp [dictSet, dictGet, h, ih]

theorem dictGet_dictSet_ne (d : Dict) (k q : Bytes) (e : KeyEntry)
    (h : q ≠ k) : dictGet (dictSet d k e) q = dictGet d q := by
  have hkq : k ≠ q := Ne.symm h
  induction d with
  | nil => simp [dictSet, dictGet, hkq]
  | cons p rest ih =>
      obtain ⟨k', e'⟩ := p
      by_cases h' : k' = k
      · subst h'
        simp [dictSet, dictGet, hkq]
      · simp [dictSet, dictGet, h', ih]

theorem dictGet_dictDel_ne (d : Dict) (k q : Bytes) (h : q ≠ k) :
    dictGet (dictDel d k) q = dictGet d q := by
  have hkq : k ≠ q := Ne.symm h
  induction d with
  | nil => simp [dictDel]
  | cons p rest ih =>
      obtain ⟨k', e'⟩ := p
      by_cases h' : k' = k
      · subst h'
        simp [dictDel, dictGet, hkq]
      · simp [dictDel, dictGet, h', ih]

theorem mem_dictSet (d : Dict) (k : Bytes) (e : KeyEntry)
    (p : Bytes × KeyEntry) (hp : p ∈ dictSet d k e) : p = (k, e) ∨ p ∈ d := by
  induction d with
  | nil => simpa [dictSet] using hp
  | cons q rest ih =>
      obtain ⟨k', e'⟩ := q
      by_cases h : k' = k
      · rw [dictSet, if_pos h] at hp
        rcases List.mem_cons.mp hp with h1 | h2
        · exact Or.inl h1
        · exact Or.inr (List.mem_cons_of_mem _ h2)
      · rw [dictSet, if_neg h] at hp
        rcases List.mem_cons.mp hp with h1 | h2
        · exact Or.inr (by simp [h1])
        · rcases ih h2 with h3 | h4
          · exact Or.inl h3
          · exact Or.inr (List.mem_cons_of_mem _ h4)

theorem mem_dictDel (d : Dict) (k : Bytes) (p : Bytes × KeyEntry)
    (hp : p ∈ dictDel d k) : p ∈ d := by
  induction d with
  | nil => simpa [dictDel] using hp
  | cons q rest ih =>
      obtain ⟨k', e'⟩ := q
      by_cases h : k' = k
      · rw [dictDel, if_pos h] at hp
        exact List.mem_cons_of_mem _ hp
      · rw [dictDel, if_neg h] at hp
        rcases List.mem_cons.mp hp with h1 | h2
        · exact List.mem_cons.mpr (Or.inl h1)
        · exact List.mem_cons_of_mem _ (ih h2)

theorem mem_keys_dictSet (d : Dict) (k : Bytes) (e : KeyEntry) :
    k ∈ (dictSet d k e).map Prod.fst := by
  induction d with
  | nil => simp [dictSet]
  | cons p rest ih =>
      obtain ⟨k', e'⟩ := p
      by_cases h : k' = k
      · simp [dictSet, h]
      · simp only [dictSet, if_neg h, List.map_cons, List.mem_cons]
        exact Or.inr ih

/-! ## Lemmas on `setOp` and `getOp` -/

theorem setOp_ok (s : DiskStorage) (ts : Nat) (k v : Bytes)
    (hopen : s.fileOpen = true)
    (ht : ts < 2 ^ 32) (hk : k.length < 2 ^ 32) (hv : v.length < 2 ^ 32) :
    setOp s ts k v false [] =
      ({ s with
          file := s.file ++ recordBytes ts k v,
          key_dir := dictSet s.key_dir k ⟨ts, s.write_position, recSize k v⟩,
          write_position := s.write_position + recSize k v }, .ok ()) := by
  rw [setOp, encode_kv_ok ts k v ht hk hv]
  simp [hopen]

theorem setOp_file (s : DiskStorage) (ts : Nat) (k v : Bytes)
    (hopen : s.fileOpen = true)
    (ht : ts < 2 ^ 32) (hk : k.length < 2 ^ 32) (hv : v.length < 2 ^ 32) :
    (setOp s ts k v false []).1.file = s.file ++ recordBytes ts k v := by
  rw [setOp_ok s ts k v hopen ht hk hv]

theorem getOp_setOp_self (s : DiskStorage) (ts : Nat) (k v : Bytes)
    (hopen : s.fileOpen = true) (hwp : s.write_position = s.file.length)
    (ht : ts < 2 ^ 32) (hk : k.length < 2 ^ 32) (hv : v.length < 2 ^ 32) :
    getOp (setOp s ts k v false []).1 k = .ok v := by
  rw [setOp_ok s ts k v hopen ht hk hv]
  have hslice : ((s.file ++ recordBytes ts k v).drop s.write_position).take
      (recSize k v) = recordBytes ts k v := by
    have hdrop : (s.file ++ recordBytes ts k v).drop s.write_position =
        recordBytes ts k v := List.drop_left' hwp.symm
    rw [hdrop, ← length_recordBytes ts k v, List.take_length]
  simp only [getOp, dictGet_dictSet_self, hopen, if_true, hslice,
    decode_kv_recordBytes ts k v ht hk hv]

/-! ## Claim C6 -/

/-- C6: for all (timestamp, key, value) with each field within the unsigned
32-bit on-disk widths, `encode_kv` returns the total size
`HEADER_SIZE + |key| + |value|` together with a buffer that `decode_kv`
maps back to exactly (timestamp, key, value). -/
theorem C6_encode_kv_roundtrip (t : Nat) (k v : Bytes)
    (ht : t < 2 ^ 32) (hk : k.length < 2 ^ 32) (hv : v.length < 2 ^ 32) :
    ∃ data : Bytes,
      encode_kv t k v = .ok (HEADER_SIZE + k.length + v.length, data) ∧
      decode_kv data = .ok (t, k, v) :=
  ⟨recordBytes t k v, encode_kv_ok t k v ht hk hv,
    decode_kv_recordBytes t k v ht hk hv⟩

/-- Witness for C6 at timestamp 10, key "hello", value "world". -/
theorem C6_encode_kv_roundtrip_witness :
    ∃ data : Bytes,
      encode_kv 10 [104, 101, 108, 108, 111] [119, 111, 114, 108, 100] =
        .ok (HEADER_SIZE + ([104, 101, 108, 108, 111] : Bytes).length +
          ([119, 111, 114, 108, 100] : Bytes).length, data) ∧
      decode_kv data =
        .ok (10, [104, 101, 108, 108, 111], [119, 111, 114, 108, 100]) :=
  C6_encode_kv_roundtrip 10 [104, 101, 108, 108, 111]
    [119, 111, 114, 108, 100] (by decide) (by decide) (by decide)

/-! ## Claim C7 -/

/-- C7: encoding a header with any of the three fields outside the unsigned
32-bit range fails with a RangeError at encode time; no out-of-range value
is silently wrapped or truncated. -/
theorem C7_encode_header_range_rejection (t ks vs : Nat)
    (h : 2 ^ 32 ≤ t ∨ 2 ^ 32 ≤ ks ∨ 2 ^ 32 ≤ vs) :
    encode_header t ks vs = .error "RangeError" := by
  rw [encode_header, if_neg]
  intro hin
  obtain ⟨h1, h2, h3⟩ := hin
  omega

/-- Witness for C7: each of the three fields equal to 2^32 is rejected
independently. -/
theorem C7_encode_header_range_rejection_witness :
    encode_header (2 ^ 32) 5 5 = .error "RangeError" ∧
    encode_header 5 (2 ^ 32) 5 = .error "RangeError" ∧
    encode_header 5 5 (2 ^ 32) = .error "RangeError" :=
  ⟨C7_encode_header_range_rejection (2 ^ 32) 5 5 (Or.inl (Nat.le_refl _)),
   C7_encode_header_range_rejection 5 (2 ^ 32) 5 (Or.inr (Or.inl (Nat.le_refl _))),
   C7_encode_header_range_rejection 5 5 (2 ^ 32) (Or.inr (Or.inr (Nat.le_refl _)))⟩

/-! ## Claim C4 -/

theorem dictGet_applyOp_none (s : DiskStorage) (op : Op) (k : Bytes)
    (hs : dictGet s.key_dir k = none)
    (hk : ∀ ts v, op ≠ Op.setK ts k v) :
    dictGet (applyOp s op).key_dir k = none := by
  cases op with
  | setK ts k' v =>
      have hne : k ≠ k' := by
        intro he
        exact hk ts v (by rw [he])
      rw [applyOp]
      cases hkv : encode_kv ts k' v with
      | error e => simp [setOp, hkv, hs]
      | ok p =>
          obtain ⟨size, data⟩ := p
          by_cases hop : s.fileOpen
          · simp [setOp, hkv, hop, dictGet_dictSet_ne _ _ _ _ hne, hs]
          · simp [setOp, hkv, hop, hs]
  | removeK ts k' =>
      rw [applyOp]
      by_cases he : k = k'
      · subst he
        simp [removeOp, hs]
      · by_cases hsome : (dictGet s.key_dir k').isSome
        · cases hkv : encode_kv ts k' [] with
          | error e => simp [removeOp, hsome, setOp, hkv, hs]
          | ok p =>
              obtain ⟨size, data⟩ := p
              by_cases hop : s.fileOpen
              · simp [removeOp, hsome, setOp, hkv, hop,
                  dictGet_dictDel_ne _ _ _ he, dictGet_dictSet_ne _ _ _ _ he,
                  hs]
              · simp [removeOp, hsome, setOp, hkv, hop, hs]
        · simp [removeOp, hsome, hs]

theorem dictGet_runOps_none (l : List Op) (s : DiskStorage) (k : Bytes)
    (hs : dictGet s.key_dir k = none) (hk : k ∉ setKeys l) :
    dictGet (runOps s l).key_dir k = none := by
  induction l generalizing s with
  | nil => exact hs
  | cons op rest ih =>
      rw [runOps]
      refine ih (applyOp s op) (dictGet_applyOp_none s op k hs ?_) ?_
      · intro ts v heq
        apply hk
        rw [heq, setKeys]
        exact List.mem_cons_self k _
      · intro hmem
        apply hk
        cases op with
        | setK ts' k' v' => rw [setKeys]; exact List.mem_cons_of_mem _ hmem
        | removeK ts' k' => rw [setKeys]; exact hmem

/-- C4: on an open engine whose write position sits at the end of the log
file, get immediately after set returns the value just set (the latest set
wins, the key directory entry being overwritten in place); and a key that
no operation sequence from a fresh store ever passed to set is absent, so
get returns the empty string for it. -/
theorem C4_get_set (s : DiskStorage) (ts : Nat) (k v : Bytes) (l : List Op)
    (hopen : s.fileOpen = true) (hwp : s.write_position = s.file.length)
    (ht : ts < 2 ^ 32) (hk : k.length < 2 ^ 32) (hv : v.length < 2 ^ 32) :
    getOp (setOp s ts k v false []).1 k = .ok v ∧
    (k ∉ setKeys l → getOp (runOps emptyStore l) k = .ok []) := by
  constructor
  · exact getOp_setOp_self s ts k v hopen hwp ht hk hv
  · intro hnk
    have hnone : dictGet (runOps emptyStore l).key_dir k = none :=
      dictGet_runOps_none l emptyStore k rfl hnk
    rw [getOp, hnone]

/-- Witness for C4: set then get of key [1] on a store that already holds
key [5], plus get of the never-set key [9] after a set and a remove of
other keys. -/
theorem C4_get_set_witness :
    getOp (setOp (runOps emptyStore [Op.setK 2 [5] [6]]) 3 [1] [2, 3]
      false []).1 [1] = .ok [2, 3] ∧
    getOp (runOps emptyStore [Op.setK 2 [5] [6], Op.removeK 4 [5]]) [9] =
      .ok [] :=
  ⟨(C4_get_set (runOps emptyStore [Op.setK 2 [5] [6]]) 3 [1] [2, 3] []
      rfl (by decide) (by decide) (by decide) (by decide)).1,
   (C4_get_set emptyStore 0 [0] [0] [Op.setK 2 [5] [6], Op.removeK 4 [5]]
      rfl rfl (by decide) (by decide) (by decide)).2 (by decide)⟩

/-! ## Claim C10 -/

/-- C10: the empty string is a fully supported key: on an open engine whose
write position sits at the end of the log file, after set of the empty key
get of the empty key returns the value just set and the empty key appears
in list. -/
theorem C10_empty_key_supported (s : DiskStorage) (ts : Nat) (v : Bytes)
    (hopen : s.fileOpen = true) (hwp : s.write_position = s.file.length)
    (ht : ts < 2 ^ 32) (hv : v.length < 2 ^ 32) :
    getOp (setOp s ts [] v false []).1 [] = .ok v ∧
    [] ∈ listOp (setOp s ts [] v false []).1 := by
  constructor
  · exact getOp_setOp_self s ts [] v hopen hwp ht (by decide) hv
  · rw [setOp_ok s ts [] v hopen ht (by decide) hv]
    exact mem_keys_dictSet s.key_dir []
      ⟨ts, s.write_position, recSize [] v⟩

/-- Witness for C10 at a fresh store with value [7, 8]. -/
theorem C10_empty_key_supported_witness :
    getOp (setOp emptyStore 3 [] [7, 8] false []).1 [] = .ok [7, 8] ∧
    [] ∈ listOp (setOp emptyStore 3 [] [7, 8] false []).1 :=
  C10_empty_key_supported emptyStore 3 [7, 8] rfl rfl (by decide) (by decide)

/-! ## Claim C5 -/

/-- C5: a set any of whose steps fails — the record encoding, the append
write on a closed handle, or the durable write (flush/fsync) — reports the
error, and the key directory and the write position are unchanged, even
though a failed durable write may leave garbage bytes at the file tail. -/
theorem C5_failed_set_keeps_index (s : DiskStorage) (ts : Nat)
    (k v garbage : Bytes) (wfail : Bool)
    (hfail : (setOp s ts k v wfail garbage).2 ≠ .ok ()) :
    (setOp s ts k v wfail garbage).1.key_dir = s.key_dir ∧
    (setOp s ts k v wfail garbage).1.write_position = s.write_position := by
  cases hkv : encode_kv ts k v with
  | error e => simp [setOp, hkv]
  | ok p =>
      obtain ⟨size, data⟩ := p
      by_cases hop : s.fileOpen
      · cases wfail with
        | false => exact absurd (by simp [setOp, hkv, hop]) hfail
        | true => simp [setOp, hkv, hop]
      · simp [setOp, hkv, hop]

/-- Witness for C5: an injected durable-write failure on a fresh store
leaves the directory and the write position at their initial values. -/
theorem C5_failed_set_keeps_index_witness :
    (setOp emptyStore 0 [1] [2] true [9]).1.key_dir = emptyStore.key_dir ∧
    (setOp emptyStore 0 [1] [2] true [9]).1.write_position =
      emptyStore.write_position :=
  C5_failed_set_keeps_index emptyStore 0 [1] [2] [9] true
    (fun h => Except.noConfusion h)

/-! ## Claim C3 -/

/-- C3: on an open engine whose log file is a well-formed record log, after
a set of (key, value) followed by close and a fresh open of the same file,
get of the key returns the value: the replay builds a key directory entry
whose position and size locate exactly the record the set appended. -/
theorem C3_set_persists_across_reopen (rs : List RecT) (s : DiskStorage)
    (ts : Nat) (k v : Bytes)
    (hval : ∀ r ∈ rs, ValidRec r) (hfile : s.file = encodeLog rs)
    (hopen : s.fileOpen = true)
    (ht : ts < 2 ^ 32) (hk : k.length < 2 ^ 32) (hv : v.length < 2 ^ 32) :
    ∃ s2 : DiskStorage,
      openDisk (closeOp (setOp s ts k v false []).1).file = .ok s2 ∧
      getOp s2 k = .ok v := by
  have hval' : ∀ r ∈ rs ++ [(ts, k, v)], ValidRec r := by
    intro r hr
    rcases List.mem_append.mp hr with h1 | h2
    · exact hval r h1
    · have : r = (ts, k, v) := by simpa using h2
      rw [this]
      exact ⟨ht, hk, hv⟩
  have hlog : encodeLog (rs ++ [(ts, k, v)]) =
      encodeLog rs ++ recordBytes ts k v := by
    rw [encodeLog_append]
    simp [encodeLog]
  have hfile2 : (closeOp (setOp s ts k v false []).1).file =
      encodeLog (rs ++ [(ts, k, v)]) := by
    show (setOp s ts k v false []).1.file = _
    rw [setOp_file s ts k v hopen ht hk hv, hfile, hlog]
  rw [hfile2]
  refine ⟨_, openDisk_encodeLog (rs ++ [(ts, k, v)]) hval', ?_⟩
  have hfold : (replayFold [] 0 (rs ++ [(ts, k, v)])).1 =
      dictSet (replayFold [] 0 rs).1 k
        ⟨ts, (replayFold [] 0 rs).2, recSize k v⟩ := by
    rw [replayFold_append]
    rfl
  have hget : dictGet (replayFold [] 0 (rs ++ [(ts, k, v)])).1 k =
      some ⟨ts, (replayFold [] 0 rs).2, recSize k v⟩ := by
    rw [hfold, dictGet_dictSet_self]
  have hpos : (replayFold [] 0 rs).2 = (encodeLog rs).length := by
    rw [replayFold_pos]
    omega
  have hslice : ((encodeLog (rs ++ [(ts, k, v)])).drop
      (encodeLog rs).length).take (recSize k v) = recordBytes ts k v := by
    rw [hlog, List.drop_left, ← length_recordBytes ts k v, List.take_length]
  simp only [getOp, hget, hpos, hslice,
    decode_kv_recordBytes ts k v ht hk hv, if_true]

/-- Witness for C3: set key [1] to value [2] on a fresh store, close,
reopen, get. -/
theorem C3_set_persists_across_reopen_witness :
    ∃ s2 : DiskStorage,
      openDisk (closeOp (setOp emptyStore 5 [1] [2] false []).1).file =
        .ok s2 ∧
      getOp s2 [1] = .ok [2] :=
  C3_set_persists_across_reopen [] emptyStore 5 [1] [2]
    (by intro r hr; exact absurd hr (List.not_mem_nil r)) rfl rfl
    (by decide) (by decide) (by decide)

/-! ## Claim C1 -/

/-- C1 evaluation at the failing input: set key "name" (bytes
[110, 97, 109, 101]) to "jojo", remove it, close, reopen the same file.
After the reopen, get of "name" returns the empty string, as the claim
states, but "name" is present in list: the replay loop inserts a key
directory entry for every record it reads, including the tombstone record
that remove appended, so a key removed before close reappears in list
after the reopen. -/
theorem C1_removed_key_reappears_in_list :
    ∃ s4 : DiskStorage,
      openDisk (closeOp (removeOp (setOp emptyStore 0 [110, 97, 109, 101]
        [106, 111, 106, 111] false []).1 1 [110, 97, 109, 101] false
        []).1).file = .ok s4 ∧
      getOp s4 [110, 97, 109, 101] = .ok [] ∧
      [110, 97, 109, 101] ∈ listOp s4 := by
  have hfile : (closeOp (removeOp (setOp emptyStore 0 [110, 97, 109, 101]
      [106, 111, 106, 111] false []).1 1 [110, 97, 109, 101] false
      []).1).file =
      encodeLog [(0, [110, 97, 109, 101], [106, 111, 106, 111]),
        (1, [110, 97, 109, 101], [])] := by
    rfl
  rw [hfile]
  refine ⟨_, openDisk_encodeLog _ (by decide), ?_, ?_⟩
  · rfl
  · decide

/-! ## Claim C2 -/

/-- C2 evaluation at the failing input: a 13-byte log file made of a full
12-byte header declaring key_size 1 and value_size 5, followed by the one
key byte and none of the five value bytes.  Open succeeds instead of
failing with a CorruptLogError: the replay loop never checks that the key
and value bytes it skips exist, so it builds an index entry for the
truncated record and leaves the write position (18) past the end of the
file (13). -/
theorem C2_truncated_log_opens :
    openDisk (headerBytes 0 1 5 ++ [65]) =
      .ok { file := headerBytes 0 1 5 ++ [65], fileOpen := true,
            key_dir := [([65], ⟨0, 0, 18⟩)], write_position := 18 } ∧
    (headerBytes 0 1 5 ++ [65]).length = 13 := by
  have hne : (headerBytes 0 1 5 ++ [65] : Bytes) ≠ [] := by decide
  have hstep : replayLoop (headerBytes 0 1 5 ++ [65]) 0 [] =
      replayLoop [] 18 [([65], ⟨0, 0, 18⟩)] := by
    rw [replayLoop, dif_neg hne]
    rfl
  constructor
  · rw [openDisk, hstep, replayLoop_nil]
  · rfl

/-! ## Claim C8 -/

/-- C8 counterexample: list invoked after close operates on the in-memory
directory only and returns a normal result rather than failing, so it is
not the case that every public operation invoked after close fails. -/
theorem C8_list_after_close_returns_normally :
    listOp (closeOp (setOp emptyStore 0 [97] [98] false []).1) = [[97]] := by
  rfl

/-- C8 amended: after close, the operations that must touch the file
handle fail cleanly — set always, and get and remove for a key present in
the directory — while list, get of an absent key, and remove of an absent
key still return normal results computed from the in-memory directory,
which close does not clear. -/
theorem C8_closed_engine_operations (s : DiskStorage) (ts : Nat)
    (k v garbage : Bytes) (wfail : Bool) :
    (setOp (closeOp s) ts k v wfail garbage).2 ≠ .ok () ∧
    ((dictGet s.key_dir k).isSome →
      ∃ e, getOp (closeOp s) k = .error e) ∧
    ((dictGet s.key_dir k).isSome →
      (removeOp (closeOp s) ts k wfail garbage).2 ≠ .ok ()) ∧
    (dictGet s.key_dir k = none → getOp (closeOp s) k = .ok []) ∧
    (dictGet s.key_dir k = none →
      removeOp (closeOp s) ts k wfail garbage = (closeOp s, .ok ())) ∧
    listOp (closeOp s) = listOp s := by
  have hsetfull : ∀ k' v', ∃ e,
      setOp (closeOp s) ts k' v' wfail garbage = (closeOp s, .error e) := by
    intro k' v'
    cases hkv : encode_kv ts k' v' with
    | error e => exact ⟨e, by rw [setOp, hkv]⟩
    | ok p =>
        obtain ⟨size, data⟩ := p
        refine ⟨"ValueError", ?_⟩
        rw [setOp, hkv]
        simp [closeOp]
  refine ⟨?_, ?_, ?_, ?_, ?_, rfl⟩
  · obtain ⟨e, he⟩ := hsetfull k v
    rw [he]
    exact fun h => Except.noConfusion h
  · intro hsome
    obtain ⟨e, he⟩ := Option.isSome_iff_exists.mp hsome
    refine ⟨"ValueError", ?_⟩
    rw [getOp, show dictGet (closeOp s).key_dir k = some e from he]
    simp [closeOp]
  · intro hsome
    obtain ⟨e, he⟩ := hsetfull k []
    rw [removeOp, if_pos (show (dictGet (closeOp s).key_dir k).isSome
      from hsome), he]
    exact fun h => Except.noConfusion h
  · intro hnone
    rw [getOp, show dictGet (closeOp s).key_dir k = none from hnone]
  · intro hnone
    have hfalse : (dictGet (closeOp s).key_dir k).isSome = false := by
      rw [show dictGet (closeOp s).key_dir k = none from hnone]
      rfl
    simp [removeOp, hfalse]

/-- Witness for C8 amended, on a closed store holding key [1]: set fails
and get of the present key [1] fails. -/
theorem C8_closed_engine_operations_witness :
    (setOp (closeOp (setOp emptyStore 0 [1] [2] false []).1) 3 [1] [7]
      false []).2 ≠ .ok () ∧
    (∃ e, getOp (closeOp (setOp emptyStore 0 [1] [2] false []).1) [1] =
      .error e) :=
  ⟨(C8_closed_engine_operations (setOp emptyStore 0 [1] [2] false []).1
      3 [1] [7] [] false).1,
   (C8_closed_engine_operations (setOp emptyStore 0 [1] [2] false []).1
      3 [1] [7] [] false).2.1 (by decide)⟩

/-! ## Claim C9 -/

theorem replayLoop_posInv_aux (n : Nat) :
    ∀ (rest : Bytes), rest.length ≤ n →
    ∀ (pos : Nat) (dir dir' : Dict) (pos' : Nat),
      (∀ p ∈ dir, p.2.position + p.2.size ≤ pos) →
      replayLoop rest pos dir = .ok (dir', pos') →
      (∀ p ∈ dir', p.2.position + p.2.size ≤ pos') ∧ pos ≤ pos' := by
  induction n with
  | zero =>
      intro rest hlen pos dir dir' pos' hdir hres
      have hrest : rest = [] :=
        List.eq_nil_of_length_eq_zero (Nat.le_zero.mp hlen)
      subst hrest
      rw [replayLoop_nil] at hres
      simp only [Except.ok.injEq, Prod.mk.injEq] at hres
      obtain ⟨h1, h2⟩ := hres
      subst h1
      subst h2
      exact ⟨hdir, Nat.le_refl _⟩
  | succ m ih =>
      intro rest hlen pos dir dir' pos' hdir hres
      by_cases hrest : rest = []
      · subst hrest
        rw [replayLoop_nil] at hres
        simp only [Except.ok.injEq, Prod.mk.injEq] at hres
        obtain ⟨h1, h2⟩ := hres
        subst h1
        subst h2
        exact ⟨hdir, Nat.le_refl _⟩
      · rw [replayLoop, dif_neg hrest] at hres
        cases hd : decode_header (rest.take HEADER_SIZE) with
        | error e =>
            rw [hd] at hres
            exact Except.noConfusion hres
        | ok trip =>
            obtain ⟨t, ks, vs⟩ := trip
            rw [hd] at hres
            have hlen' : (rest.drop (HEADER_SIZE + ks + vs)).length ≤ m := by
              have h0 : 0 < rest.length := List.length_pos.mpr hrest
              simp only [List.length_drop, HEADER_SIZE]
              omega
            have hdir' : ∀ p ∈ dictSet dir ((rest.drop HEADER_SIZE).take ks)
                ⟨t, pos, HEADER_SIZE + ks + vs⟩,
                p.2.position + p.2.size ≤ pos + (HEADER_SIZE + ks + vs) := by
              intro p hp
              rcases mem_dictSet _ _ _ p hp with h1 | h2
              · rw [h1]
              · have := hdir p h2
                omega
            have hrec := ih _ hlen' _ _ _ _ hdir' hres
            exact ⟨hrec.1, Nat.le_trans (Nat.le_add_right pos _) hrec.2⟩

theorem openDisk_posInv (file : Bytes) (s : DiskStorage)
    (hopen : openDisk file = .ok s) : PosInv s := by
  rw [openDisk] at hopen
  cases hres : replayLoop file 0 [] with
  | error e =>
      rw [hres] at hopen
      exact Except.noConfusion hopen
  | ok p =>
      obtain ⟨dir, pos⟩ := p
      rw [hres] at hopen
      simp only [Except.ok.injEq] at hopen
      subst hopen
      intro q hq
      exact (replayLoop_posInv_aux file.length file (Nat.le_refl _) 0 []
        dir pos (fun p hp => absurd hp (List.not_mem_nil p)) hres).1 q hq

theorem setOp_posInv (s : DiskStorage) (ts : Nat) (k v garbage : Bytes)
    (wfail : Bool) (hinv : PosInv s) :
    PosInv (setOp s ts k v wfail garbage).1 ∧
    s.write_position ≤ (setOp s ts k v wfail garbage).1.write_position := by
  cases hkv : encode_kv ts k v with
  | error e =>
      rw [setOp, hkv]
      exact ⟨hinv, Nat.le_refl _⟩
  | ok p =>
      obtain ⟨size, data⟩ := p
      by_cases hop : s.fileOpen
      · cases wfail with
        | true =>
            have hres : setOp s ts k v true garbage =
                ({ s with file := s.file ++ garbage }, .error "IOError") := by
              rw [setOp, hkv]
              simp [hop]
            rw [hres]
            exact ⟨fun q hq => hinv q hq, Nat.le_refl _⟩
        | false =>
            have hres : setOp s ts k v false garbage =
                ({ s with
                    file := s.file ++ data,
                    key_dir := dictSet s.key_dir k
                      ⟨ts, s.write_position, size⟩,
                    write_position := s.write_position + size }, .ok ()) := by
              rw [setOp, hkv]
              simp [hop]
            rw [hres]
            constructor
            · intro q hq
              rcases mem_dictSet _ _ _ q hq with h1 | h2
              · rw [h1]
              · show q.2.position + q.2.size ≤ s.write_position + size
                have := hinv q h2
                omega
            · exact Nat.le_add_right _ _
      · have hres : setOp s ts k v wfail garbage =
            (s, .error "ValueError") := by
          rw [setOp, hkv]
          simp [hop]
        rw [hres]
        exact ⟨hinv, Nat.le_refl _⟩

theorem removeOp_posInv (s : DiskStorage) (ts : Nat) (k garbage : Bytes)
    (wfail : Bool) (hinv : PosInv s) :
    PosInv (removeOp s ts k wfail garbage).1 ∧
    s.write_position ≤ (removeOp s ts k wfail garbage).1.write_position := by
  by_cases hsome : (dictGet s.key_dir k).isSome
  · rw [removeOp, if_pos hsome]
    have hset := setOp_posInv s ts k [] garbage wfail hinv
    cases hres : setOp s ts k [] wfail garbage with
    | mk s' r =>
        rw [hres] at hset
        cases r with
        | error e => exact hset
        | ok u =>
            refine ⟨?_, hset.2⟩
            intro q hq
            exact hset.1 q (mem_dictDel _ _ q hq)
  · rw [removeOp, if_neg hsome]
    exact ⟨hinv, Nat.le_refl _⟩

/-- C9: a successful open establishes the index-bounds invariant (every
key directory entry ends at or before the write position), and set and
remove — succeeding or failing — preserve it and never decrease the write
position. -/
theorem C9_write_position_bounds_index (file : Bytes) (sO s : DiskStorage)
    (ts : Nat) (k v garbage : Bytes) (wfail : Bool)
    (hopen : openDisk file = .ok sO) (hinv : PosInv s) :
    PosInv sO ∧
    (PosInv (setOp s ts k v wfail garbage).1 ∧
      s.write_position ≤ (setOp s ts k v wfail garbage).1.write_position) ∧
    (PosInv (removeOp s ts k wfail garbage).1 ∧
      s.write_position ≤ (removeOp s ts k wfail garbage).1.write_position) :=
  ⟨openDisk_posInv file sO hopen, setOp_posInv s ts k v garbage wfail hinv,
   removeOp_posInv s ts k garbage wfail hinv⟩

/-- Witness for C9 on a fresh store: open of the empty file, then a set
and a remove of key [1]. -/
theorem C9_write_position_bounds_index_witness :
    PosInv emptyStore ∧
    (PosInv (setOp emptyStore 3 [1] [4] false []).1 ∧
      emptyStore.write_position ≤
        (setOp emptyStore 3 [1] [4] false []).1.write_position) ∧
    (PosInv (removeOp emptyStore 3 [1] false []).1 ∧
      emptyStore.write_position ≤
        (removeOp emptyStore 3 [1] false []).1.write_position) :=
  C9_write_position_bounds_index [] emptyStore emptyStore 3 [1] [4] []
    false (by rw [openDisk, replayLoop_nil]; rfl) (by decide)

end Pollen
